import Mathlib

/-!
Verification of the Come Near data-lake ingester (`ingester_cn_only.py`).

The pipeline's text artifacts are modelled as lists of Unicode code points
(`List Nat`), byte strings as lists of byte values (`List Nat`), and object
keys as `List Char`.  The object store is an association list from keys to
byte contents.  Each definition mirrors one function of `CNIngester`.
-/

namespace CN

/-- Unicode general-category Cf ("format") code points, as tested by
`unicodedata.category(char) != 'Cf'` in `normalize_text` (line 112).
The ranges are the full Cf category of the Unicode character database. -/
def isCf (c : Nat) : Bool :=
  c = 0xAD ∨ (0x600 ≤ c ∧ c ≤ 0x605) ∨ c = 0x61C ∨ c = 0x6DD ∨ c = 0x70F ∨
  (0x890 ≤ c ∧ c ≤ 0x891) ∨ c = 0x8E2 ∨ c = 0x180E ∨
  (0x200B ≤ c ∧ c ≤ 0x200F) ∨ (0x202A ≤ c ∧ c ≤ 0x202E) ∨
  (0x2060 ≤ c ∧ c ≤ 0x2064) ∨ (0x2066 ≤ c ∧ c ≤ 0x206F) ∨ c = 0xFEFF ∨
  (0xFFF9 ≤ c ∧ c ≤ 0xFFFB) ∨ c = 0x110BD ∨ c = 0x110CD ∨
  (0x13430 ≤ c ∧ c ≤ 0x1343F) ∨ (0x1BCA0 ≤ c ∧ c ≤ 0x1BCA3) ∨
  (0x1D173 ≤ c ∧ c ≤ 0x1D17A) ∨ c = 0xE0001 ∨ (0xE0020 ≤ c ∧ c ≤ 0xE007F)

/-- The code points Python's `str.isspace` accepts; `str.strip()` with no
argument (line 125) removes exactly these from both ends. -/
def pyIsSpace (c : Nat) : Bool :=
  (0x9 ≤ c ∧ c ≤ 0xD) ∨ (0x1C ≤ c ∧ c ≤ 0x1F) ∨ c = 0x20 ∨ c = 0x85 ∨
  c = 0xA0 ∨ c = 0x1680 ∨ (0x2000 ≤ c ∧ c ≤ 0x200A) ∨ c = 0x2028 ∨
  c = 0x2029 ∨ c = 0x202F ∨ c = 0x205F ∨ c = 0x3000

/-- Canonical combining class, instantiated with the Unicode character data
for the combining marks exercised in this development; every other code
point has class 0 (true in particular of all ASCII). -/
def ccc (c : Nat) : Nat :=
  if c = 0x300 ∨ c = 0x301 ∨ c = 0x302 ∨ c = 0x303 ∨ c = 0x308 then 230
  else if c = 0x316 then 220
  else if c = 0x327 then 202
  else 0

/-- Canonical decomposition table (full decompositions), instantiated with
the Unicode character data for the precomposed letters exercised here;
every other code point has no canonical decomposition. -/
def canonDecomp (c : Nat) : Option (List Nat) :=
  if c = 0xC1 then some [0x41, 0x301]
  else if c = 0xE0 then some [0x61, 0x300]
  else if c = 0xE1 then some [0x61, 0x301]
  else if c = 0xE2 then some [0x61, 0x302]
  else if c = 0xE8 then some [0x65, 0x300]
  else if c = 0xE9 then some [0x65, 0x301]
  else if c = 0xE7 then some [0x63, 0x327]
  else if c = 0xF1 then some [0x6E, 0x303]
  else none

/-- Primary composites: the inverse pairs of `canonDecomp` (none of these
are composition exclusions). -/
def canonCompose (a b : Nat) : Option Nat :=
  if a = 0x41 ∧ b = 0x301 then some 0xC1
  else if a = 0x61 ∧ b = 0x300 then some 0xE0
  else if a = 0x61 ∧ b = 0x301 then some 0xE1
  else if a = 0x61 ∧ b = 0x302 then some 0xE2
  else if a = 0x65 ∧ b = 0x300 then some 0xE8
  else if a = 0x65 ∧ b = 0x301 then some 0xE9
  else if a = 0x63 ∧ b = 0x327 then some 0xE7
  else if a = 0x6E ∧ b = 0x303 then some 0xF1
  else none

/-- Canonically decompose a string (the table holds full decompositions). -/
def canonDecompose (s : List Nat) : List Nat :=
  s.foldr (fun c acc => ((canonDecomp c).getD [c]) ++ acc) []

/-- Insert a character before the already-ordered combining marks that do
not have a strictly smaller combining class (canonical-ordering step). -/
def insBefore (c : Nat) : List Nat → List Nat
  | [] => [c]
  | d :: ds => if 0 < ccc d ∧ ccc d < ccc c then d :: insBefore c ds else c :: d :: ds

/-- Canonical ordering of combining-mark runs (UAX #15). -/
def canonicalOrder : List Nat → List Nat
  | [] => []
  | c :: rest => if ccc c = 0 then c :: canonicalOrder rest else insBefore c (canonicalOrder rest)

/-- A combining mark is blocked from the last starter when the most recent
intervening mark has a combining class at least its own. -/
def blocked (marks : List Nat) (c : Nat) : Bool :=
  match marks with
  | [] => false
  | m :: _ => ccc c ≤ ccc m

/-- Canonical composition pass (UAX #15): `st` is the last starter, `marks`
the (reversed) combining marks seen after it that did not compose. -/
def compAux (st : Nat) (marks : List Nat) : List Nat → List Nat
  | [] => st :: marks.reverse
  | c :: rest =>
    if ccc c = 0 then
      if marks.isEmpty then
        match canonCompose st c with
        | some comp => compAux comp [] rest
        | none => st :: compAux c [] rest
      else st :: marks.reverse ++ compAux c [] rest
    else
      if blocked marks c then compAux st (c :: marks) rest
      else
        match canonCompose st c with
        | some comp => compAux comp marks rest
        | none => compAux st (c :: marks) rest

/-- Compose a canonically ordered, fully decomposed string. -/
def composeList : List Nat → List Nat
  | [] => []
  | c :: rest => if ccc c = 0 then compAux c [] rest else c :: composeList rest

/-- Canonical composition normalization (NFC), the model of
`unicodedata.normalize('NFC', content)` at line 108: full canonical
decomposition, canonical ordering, then canonical composition. -/
def nfcModel (s : List Nat) : List Nat := composeList (canonicalOrder (canonDecompose s))

/-- `content.lstrip('﻿')` (line 111): drop every leading BOM. -/
def bomStrip (s : List Nat) : List Nat := s.dropWhile (fun c => c = 0xFEFF)

/-- Scanner for `re.sub(r' +', ' ', content)`: `prevSpace` records whether
the previously emitted character was an ASCII space; further spaces of the
same run are dropped. -/
def collapseSpacesAux (prevSpace : Bool) : List Nat → List Nat
  | [] => []
  | c :: rest =>
    if c = 32 then
      if prevSpace then collapseSpacesAux true rest
      else 32 :: collapseSpacesAux true rest
    else c :: collapseSpacesAux false rest

/-- `re.sub(r' +', ' ', content)` (line 116): collapse each run of ASCII
spaces to a single space. -/
def collapseSpaces (s : List Nat) : List Nat := collapseSpacesAux false s

/-- `content.replace('\r\n', '\n')` (line 119), left-to-right. -/
def replaceCrlf : List Nat → List Nat
  | 13 :: 10 :: rest => 10 :: replaceCrlf rest
  | c :: rest => c :: replaceCrlf rest
  | [] => []

/-- `.replace('\r', '\n')` (line 119). -/
def crToLf (s : List Nat) : List Nat := s.map (fun c => if c = 13 then 10 else c)

/-- Scanner for `re.sub(r'\n\n+', '\n\n', content)`: `run` counts the
newlines already emitted in the current run; past two, further newlines of
the run are dropped. -/
def collapseNewlinesAux (run : Nat) : List Nat → List Nat
  | [] => []
  | c :: rest =>
    if c = 10 then
      if run < 2 then 10 :: collapseNewlinesAux (run + 1) rest
      else collapseNewlinesAux run rest
    else c :: collapseNewlinesAux 0 rest

/-- `re.sub(r'\n\n+', '\n\n', content)` (line 122): collapse each run of two
or more newlines to exactly two. -/
def collapseNewlines (s : List Nat) : List Nat := collapseNewlinesAux 0 s

/-- Remove trailing Python whitespace (the right half of `str.strip()`). -/
def dropTrailing : List Nat → List Nat
  | [] => []
  | c :: rest =>
    let r := dropTrailing rest
    if r.isEmpty ∧ pyIsSpace c then [] else c :: r

/-- `content.strip()` (line 125). -/
def pyStrip (s : List Nat) : List Nat := dropTrailing (s.dropWhile pyIsSpace)

/-- `CNIngester.normalize_text` (lines 103-127) on an already-decoded
string: NFC, BOM strip, format-character removal, space collapse,
line-break normalization, blank-line collapse, whole-string trim. -/
def normalize_text (s : List Nat) : List Nat :=
  pyStrip (collapseNewlines (crToLf (replaceCrlf (collapseSpaces
    (List.filter (fun c => !isCf c) (bomStrip (nfcModel s)))))))

/-- Is `b` a UTF-8 continuation byte? -/
def isCont (b : Nat) : Bool := 0x80 ≤ b ∧ b ≤ 0xBF

/-- Is `b2` a valid first continuation byte after lead byte `b`?  `0xE0`,
`0xED`, `0xF0` and `0xF4` restrict it to exclude overlong forms and
surrogates. -/
def firstContOk (b b2 : Nat) : Bool :=
  if b = 0xE0 then 0xA0 ≤ b2 ∧ b2 ≤ 0xBF
  else if b = 0xED then 0x80 ≤ b2 ∧ b2 ≤ 0x9F
  else if b = 0xF0 then 0x90 ≤ b2 ∧ b2 ≤ 0xBF
  else if b = 0xF4 then 0x80 ≤ b2 ∧ b2 ≤ 0x8F
  else isCont b2

/-- Decode one code point starting at lead byte `b` followed by `rest`:
returns the code point (U+FFFD on an ill-formed subsequence) and the number
of bytes of `rest` additionally consumed. -/
def utf8Step (b : Nat) (rest : List Nat) : Nat × Nat :=
  if b < 0x80 then (b, 0)
  else if 0xC2 ≤ b ∧ b ≤ 0xDF then
    match rest with
    | b2 :: _ => if isCont b2 then ((b - 0xC0) * 0x40 + (b2 - 0x80), 1) else (0xFFFD, 0)
    | [] => (0xFFFD, 0)
  else if 0xE0 ≤ b ∧ b ≤ 0xEF then
    match rest with
    | b2 :: rest2 =>
      if firstContOk b b2 then
        match rest2 with
        | b3 :: _ =>
          if isCont b3 then
            ((b - 0xE0) * 0x1000 + (b2 - 0x80) * 0x40 + (b3 - 0x80), 2)
          else (0xFFFD, 1)
        | [] => (0xFFFD, 1)
      else (0xFFFD, 0)
    | [] => (0xFFFD, 0)
  else if 0xF0 ≤ b ∧ b ≤ 0xF4 then
    match rest with
    | b2 :: rest2 =>
      if firstContOk b b2 then
        match rest2 with
        | b3 :: rest3 =>
          if isCont b3 then
            match rest3 with
            | b4 :: _ =>
              if isCont b4 then
                ((b - 0xF0) * 0x40000 + (b2 - 0x80) * 0x1000 + (b3 - 0x80) * 0x40 +
                  (b4 - 0x80), 3)
              else (0xFFFD, 2)
            | [] => (0xFFFD, 2)
          else (0xFFFD, 1)
        | [] => (0xFFFD, 1)
      else (0xFFFD, 0)
    | [] => (0xFFFD, 0)
  else (0xFFFD, 0)

/-- Fuelled decoding loop; every step consumes the lead byte, so fuel equal
to the byte count always suffices. -/
def utf8DecodeGo : Nat → List Nat → List Nat
  | _, [] => []
  | 0, _ :: _ => []
  | fuel + 1, b :: rest =>
    let p := utf8Step b rest
    p.1 :: utf8DecodeGo fuel (rest.drop p.2)

/-- `bytes.decode('utf-8', errors='replace')` (lines 106-107): lossy UTF-8
decoding; each maximal subpart of an ill-formed subsequence becomes one
U+FFFD and decoding resumes at the first offending byte. -/
def utf8DecodeReplace (l : List Nat) : List Nat := utf8DecodeGo l.length l

/-- UTF-8 encoding of one code point (`str.encode('utf-8')`). -/
def utf8EncodeChar (c : Nat) : List Nat :=
  if c < 0x80 then [c]
  else if c < 0x800 then [0xC0 + c / 0x40, 0x80 + c % 0x40]
  else if c < 0x10000 then
    [0xE0 + c / 0x1000, 0x80 + c / 0x40 % 0x40, 0x80 + c % 0x40]
  else
    [0xF0 + c / 0x40000, 0x80 + c / 0x1000 % 0x40, 0x80 + c / 0x40 % 0x40, 0x80 + c % 0x40]

/-- UTF-8 encoding of a string (line 157). -/
def utf8Encode (s : List Nat) : List Nat := s.foldr (fun c acc => utf8EncodeChar c ++ acc) []

/-- `normalize_text` applied to raw bytes (the `isinstance(content, bytes)`
branch at lines 106-107 decodes first). -/
def normalize_bytes (b : List Nat) : List Nat := normalize_text (utf8DecodeReplace b)

/-- Object keys are strings of characters. -/
abbrev Key := List Char

/-- The object store: an association list from keys to byte contents.
The first binding for a key is its current content. -/
abbrev Store := List (Key × List Nat)

/-- `get_object`: the bytes currently stored at `k`, if any. -/
def Store.find (st : Store) (k : Key) : Option (List Nat) :=
  match st with
  | [] => none
  | (k', v) :: rest => if k' = k then some v else Store.find rest k

/-- `put_object`: store `v` at `k`, replacing any previous content. -/
def Store.put (st : Store) (k : Key) (v : List Nat) : Store :=
  (k, v) :: st.filter (fun p => !(p.1 = k : Bool))

/-- Error codes a `put_object` call can fail with (`ClientError` codes
inspected at line 191, plus a catch-all for every other store error). -/
inductive PutErr
  | AccessDenied
  | InvalidTag
  | Other
deriving DecidableEq, Repr

/-- Store faults injected into one `curate_file` call: whether the
`get_object` on the curated key raises a non-`NoSuchKey` error, the error
(if any) raised by the tagged `put_object`, and whether the untagged retry
`put_object` raises. -/
structure Faults where
  getCuratedFails : Bool
  putTaggedErr : Option PutErr
  putPlainFails : Bool
deriving DecidableEq, Repr

/-- A fault-free store. -/
def noFaults : Faults := ⟨false, none, false⟩

/-- `os.path.basename` (line 160): the part of the key after its last
slash. -/
def basename (k : Key) : Key := (k.reverse.takeWhile (fun c => c ≠ '/')).reverse

/-- The derived curated key (line 161): `curated/<basename>.norm.txt`. -/
def curatedKeyOf (base_key : Key) : Key :=
  "curated/".toList ++ basename base_key ++ ".norm.txt".toList

/-- The normalized UTF-8 bytes for raw text content (lines 155-157):
lossy-decode, normalize, re-encode. -/
def curatedBytes (content : List Nat) : List Nat :=
  utf8Encode (normalize_text (utf8DecodeReplace content))

/-- The result dictionary `curate_file` returns (lines 172-176, 204-208). -/
structure CurationResult where
  curated_key : Key
  curated_size_bytes : Nat
  curated_checksum : String
deriving DecidableEq, Repr

/-- `CNIngester.curate_file` (lines 151-212), parameterized by the SHA-256
hex-digest function `sha` (`calculate_sha256`, lines 129-131) and the
injected store faults.  Returns the optional result, the store after the
call, and the number of `put_object` calls issued. -/
def curate_file (sha : List Nat → String) (f : Faults) (st : Store) (base_key : Key)
    (content : List Nat) : Option CurationResult × Store × Nat :=
  let nb := curatedBytes content
  let ck := curatedKeyOf base_key
  if f.getCuratedFails then (none, st, 0)
  else
    let write : Option CurationResult × Store × Nat :=
      match f.putTaggedErr with
      | none => (some ⟨ck, nb.length, "sha256:" ++ sha nb⟩, st.put ck nb, 1)
      | some e =>
        if e = PutErr.AccessDenied ∨ e = PutErr.InvalidTag then
          if f.putPlainFails then (none, st, 2)
          else (some ⟨ck, nb.length, "sha256:" ++ sha nb⟩, st.put ck nb, 2)
        else (none, st, 1)
    match st.find ck with
    | some existing =>
      if sha existing = sha nb then (some ⟨ck, nb.length, "sha256:" ++ sha nb⟩, st, 0)
      else write
    | none => write

/-- The `.json` extension recognized by `discover_pairs` (line 76). -/
def jsonExt : Key := ['.', 'j', 's', 'o', 'n']

/-- The `.txt` extension recognized by `discover_pairs` (line 76). -/
def txtExt : Key := ['.', 't', 'x', 't']

/-- One entry of the `files_by_base` dictionary (lines 80-86): the `.json`
key and/or the `.txt` key observed for a base key. -/
structure BaseFiles where
  js : Option Key
  tx : Option Key
deriving DecidableEq, Repr

/-- Record the `.json` sibling (line 84). -/
def setJson (k : Key) (v : BaseFiles) : BaseFiles := ⟨some k, v.tx⟩

/-- Record the `.txt` sibling (line 86). -/
def setTxt (k : Key) (v : BaseFiles) : BaseFiles := ⟨v.js, some k⟩

/-- Update (or insert, preserving dictionary insertion order) the entry of
base key `b` in `files_by_base` (lines 80-86). -/
def updAssoc (b : Key) (g : BaseFiles → BaseFiles) :
    List (Key × BaseFiles) → List (Key × BaseFiles)
  | [] => [(b, g ⟨none, none⟩)]
  | (b', v) :: rest => if b' = b then (b', g v) :: rest else (b', v) :: updAssoc b g rest

/-- Process one listed key (lines 74-86): strip `.json` (5 chars) or
`.txt` (4 chars) from the tail to obtain the base key and record the
sibling; other keys are ignored. -/
def scanStep (m : List (Key × BaseFiles)) (k : Key) : List (Key × BaseFiles) :=
  if jsonExt.isSuffixOf k then updAssoc (k.take (k.length - 5)) (setJson k) m
  else if txtExt.isSuffixOf k then updAssoc (k.take (k.length - 4)) (setTxt k) m
  else m

/-- The listing loop of `discover_pairs` over all keys returned under the
prefix (lines 70-86). -/
def scanLoop (m : List (Key × BaseFiles)) : List Key → List (Key × BaseFiles)
  | [] => m
  | k :: rest => scanLoop (scanStep m k) rest

/-- Lookup in `files_by_base`. -/
def findB (m : List (Key × BaseFiles)) (b : Key) : Option BaseFiles :=
  match m with
  | [] => none
  | (b', v) :: rest => if b' = b then some v else findB rest b

/-- `CNIngester.discover_pairs` (lines 63-101) on the key listing returned
under the scanned prefix: group keys by base, then keep exactly the bases
with both a `.json` and a `.txt` sibling (lines 89-94); incomplete bases
are logged and excluded. -/
def discover_pairs (keys : List Key) : List (Key × Key × Key) :=
  (scanLoop [] keys).filterMap (fun p =>
    match p.2.js, p.2.tx with
    | some j, some t => some (p.1, j, t)
    | _, _ => none)

/-- One entry of the audit manifest (lines 292-314).  The `curated` field
is `none` for the structured (JSON) member and carries the curation result
for the text member. -/
structure ManifestEntry where
  key : Key
  etype : String
  size_bytes : Nat
  checksum : String
  content_type : String
  pii : String
  status : String
  curated : Option CurationResult
deriving DecidableEq, Repr

/-- The content type `get_object_info` reports when the store holds none
(line 143). -/
def defaultContentType : String := "application/octet-stream"

/-- The manifest entry built for the structured member (lines 292-300). -/
def jsonEntryOf (sha : List Nat → String) (k : Key) (bytes : List Nat) : ManifestEntry :=
  ⟨k, "aws_transcribe_json", bytes.length, "sha256:" ++ sha bytes,
    defaultContentType, "low", "ingested", none⟩

/-- The manifest entry built for the text member (lines 303-314). -/
def txtEntryOf (sha : List Nat → String) (k : Key) (bytes : List Nat)
    (r : CurationResult) : ManifestEntry :=
  ⟨k, "minutes_txt", bytes.length, "sha256:" ++ sha bytes,
    defaultContentType, "low", "ingested", some r⟩

/-- The per-pair processing loop of `ingest` (lines 273-319): fetch both
members, curate the text member, and on success append the pair's two
manifest entries; any failure skips the pair and processing continues.
Returns (entries, final store, curated `put_object` calls, pairs
processed). -/
def processLoop (sha : List Nat → String) (faults : Key → Faults) :
    List (Key × Key × Key) → Store → List ManifestEntry × Store × Nat × Nat
  | [], st => ([], st, 0, 0)
  | (bk, jk, tk) :: rest, st =>
    match st.find jk, st.find tk with
    | some jb, some tb =>
      match curate_file sha (faults bk) st bk tb with
      | (some r, st1, w) =>
        let q := processLoop sha faults rest st1
        (jsonEntryOf sha jk jb :: txtEntryOf sha tk tb r :: q.1, q.2.1, w + q.2.2.1, q.2.2.2 + 1)
      | (none, st1, w) =>
        let q := processLoop sha faults rest st1
        (q.1, q.2.1, w + q.2.2.1, q.2.2.2)
    | _, _ => processLoop sha faults rest st

/-- The fixed health-check key (line 48). -/
def healthKey : Key := "parallax/health/healthcheck.txt".toList

/-- The observable outcome of one `ingest` run. -/
structure RunReport where
  success : Bool
  manifestWritten : Bool
  entries : List ManifestEntry
  store : Store
  curatedPuts : Nat
  processed : Nat
deriving DecidableEq, Repr

/-- `CNIngester.ingest` (lines 250-332).  `healthOk` is the outcome of the
health check (line 258; on failure the run aborts before any further store
call), `healthBytes` the timestamped health-file content it writes,
`listing` the key listing under the scanned prefix (`none` when the store
listing raises, which `discover_pairs` turns into an empty pair list,
lines 99-101), and `manifestPutOk` whether the manifest `put_object`
succeeds (lines 234-248). -/
def ingest (sha : List Nat → String) (healthOk : Bool) (healthBytes : List Nat)
    (listing : Option (List Key)) (st0 : Store) (faults : Key → Faults)
    (manifestPutOk : Bool) : RunReport :=
  if healthOk = false then ⟨false, false, [], st0, 0, 0⟩
  else
    let st := st0.put healthKey healthBytes
    let pairs := match listing with | none => [] | some ks => discover_pairs ks
    if pairs.isEmpty then ⟨true, false, [], st, 0, 0⟩
    else
      let q := processLoop sha faults pairs st
      if q.1.isEmpty then ⟨true, false, q.1, q.2.1, q.2.2.1, q.2.2.2⟩
      else ⟨manifestPutOk, manifestPutOk, q.1, q.2.1, q.2.2.1, q.2.2.2⟩

/-- `main` (line 346): exit code 0 on success, 1 otherwise. -/
def exitCode (success : Bool) : Nat := if success then 0 else 1

/-- The empty `files_by_base` entry created at line 81. -/
def emptyBF : BaseFiles := ⟨none, none⟩

/-- The `.json` sibling recorded for base `b`, `none` when absent. -/
def jsOf (m : List (Key × BaseFiles)) (b : Key) : Option Key := ((findB m b).getD emptyBF).js

/-- The `.txt` sibling recorded for base `b`, `none` when absent. -/
def txOf (m : List (Key × BaseFiles)) (b : Key) : Option Key := ((findB m b).getD emptyBF).tx

/-- Does the string start with the character `v`? -/
def headIs (v : Nat) (s : List Nat) : Bool :=
  match s with
  | [] => false
  | c :: _ => c = v

/-- Does the string contain two consecutive ASCII spaces? -/
def hasDoubleSpace : List Nat → Bool
  | [] => false
  | c :: rest => (decide (c = 32) && headIs 32 rest) || hasDoubleSpace rest

/-- Does the string contain three consecutive newlines? -/
def hasTripleNewline : List Nat → Bool
  | [] => false
  | c :: rest => (decide (c = 10) && headIs 10 rest && headIs 10 rest.tail) || hasTripleNewline rest

/-- The number of leading newline characters. -/
def leadNl : List Nat → Nat
  | [] => 0
  | c :: rest => if c = 10 then leadNl rest + 1 else 0

/-! ### Store lemmas -/

theorem Store.find_put_self (st : Store) (k : Key) (v : List Nat) :
    Store.find (Store.put st k v) k = some v := by
  simp [Store.put, Store.find]

/-! ### Claim theorems: the Curator -/

/-- Claim C2: running the Curator twice on byte-identical source content
(the second run against the store state left by the first) produces the
identical `CurationResult` and issues exactly one write call total: the
first run (against a store holding no object of equal checksum at the
curated key) writes once, and the second run finds the existing curated
object, compares checksums, returns the existing result and performs zero
writes. -/
theorem curate_file_second_run_no_write (sha : List Nat → String) (st : Store) (bk : Key)
    (c : List Nat)
    (h : ∀ e, Store.find st (curatedKeyOf bk) = some e → sha e ≠ sha (curatedBytes c)) :
    curate_file sha noFaults st bk c =
      (some ⟨curatedKeyOf bk, (curatedBytes c).length, "sha256:" ++ sha (curatedBytes c)⟩,
        Store.put st (curatedKeyOf bk) (curatedBytes c), 1) ∧
    curate_file sha noFaults (Store.put st (curatedKeyOf bk) (curatedBytes c)) bk c =
      (some ⟨curatedKeyOf bk, (curatedBytes c).length, "sha256:" ++ sha (curatedBytes c)⟩,
        Store.put st (curatedKeyOf bk) (curatedBytes c), 0) := by
  constructor
  · simp only [curate_file, noFaults, if_neg]
    cases hfind : Store.find st (curatedKeyOf bk) with
    | none => simp
    | some e => simp [h e hfind]
  · simp [curate_file, noFaults, Store.find_put_self]

/-- Witness for C2 at a concrete input: an empty store, base key
`uploads/m1` and content `"Hi"`. -/
theorem curate_file_second_run_no_write_witness :
    curate_file (fun l => toString l) noFaults [] "uploads/m1".toList
        ("Hi".toList.map Char.toNat) =
      (some ⟨curatedKeyOf "uploads/m1".toList,
        (curatedBytes ("Hi".toList.map Char.toNat)).length,
        "sha256:" ++ toString (curatedBytes ("Hi".toList.map Char.toNat))⟩,
        Store.put [] (curatedKeyOf "uploads/m1".toList)
          (curatedBytes ("Hi".toList.map Char.toNat)), 1) ∧
    curate_file (fun l => toString l) noFaults
        (Store.put [] (curatedKeyOf "uploads/m1".toList)
          (curatedBytes ("Hi".toList.map Char.toNat)))
        "uploads/m1".toList ("Hi".toList.map Char.toNat) =
      (some ⟨curatedKeyOf "uploads/m1".toList,
        (curatedBytes ("Hi".toList.map Char.toNat)).length,
        "sha256:" ++ toString (curatedBytes ("Hi".toList.map Char.toNat))⟩,
        Store.put [] (curatedKeyOf "uploads/m1".toList)
          (curatedBytes ("Hi".toList.map Char.toNat)), 0) :=
  curate_file_second_run_no_write (fun l => toString l) [] "uploads/m1".toList
    ("Hi".toList.map Char.toNat) (by intro e he; simp [Store.find] at he)

/-- Exhaustive case analysis of one `curate_file` call: it either fails
leaving the store unchanged, short-circuits on an existing equal-checksum
object (no write), or writes the normalized bytes. -/
theorem curate_file_cases (sha : List Nat → String) (f : Faults) (st : Store) (bk : Key)
    (c : List Nat) :
    ((curate_file sha f st bk c).1 = none ∧ (curate_file sha f st bk c).2.1 = st) ∨
    (∃ e, Store.find st (curatedKeyOf bk) = some e ∧ sha e = sha (curatedBytes c) ∧
      curate_file sha f st bk c =
        (some ⟨curatedKeyOf bk, (curatedBytes c).length,
          "sha256:" ++ sha (curatedBytes c)⟩, st, 0)) ∨
    (∃ w, 0 < w ∧ curate_file sha f st bk c =
      (some ⟨curatedKeyOf bk, (curatedBytes c).length,
        "sha256:" ++ sha (curatedBytes c)⟩,
        Store.put st (curatedKeyOf bk) (curatedBytes c), w)) := by
  simp only [curate_file]
  split
  · exact Or.inl ⟨rfl, rfl⟩
  · split
    case _ existing heq =>
      split
      case _ hsha => exact Or.inr (Or.inl ⟨existing, heq, hsha, rfl⟩)
      case _ hsha =>
        split
        · exact Or.inr (Or.inr ⟨1, one_pos, rfl⟩)
        · split
          · split
            · exact Or.inl ⟨rfl, rfl⟩
            · exact Or.inr (Or.inr ⟨2, two_pos, rfl⟩)
          · exact Or.inl ⟨rfl, rfl⟩
    case _ heq =>
      split
      · exact Or.inr (Or.inr ⟨1, one_pos, rfl⟩)
      · split
        · split
          · exact Or.inl ⟨rfl, rfl⟩
          · exact Or.inr (Or.inr ⟨2, two_pos, rfl⟩)
        · exact Or.inl ⟨rfl, rfl⟩

/-- Claim C4: whenever `curate_file` succeeds, the returned
`curated_checksum` is `"sha256:"` followed by the digest of exactly the
bytes stored at `curated_key` in the resulting store — the freshly written
normalized bytes when a write occurred (`0 < w`), or the pre-existing
object's bytes when the idempotent short-circuit left the store
untouched (`w = 0`). -/
theorem curate_file_checksum_integrity (sha : List Nat → String) (f : Faults) (st : Store)
    (bk : Key) (c : List Nat) (r : CurationResult) (st' : Store) (w : Nat)
    (h : curate_file sha f st bk c = (some r, st', w)) :
    ∃ b, Store.find st' r.curated_key = some b ∧
      r.curated_checksum = "sha256:" ++ sha b ∧
      (0 < w → b = curatedBytes c) ∧ (w = 0 → st' = st) := by
  rcases curate_file_cases sha f st bk c with ⟨h1, _⟩ | ⟨e, hfind, hsha, heq⟩ |
    ⟨w', hw', heq⟩
  · rw [h] at h1; cases h1
  · rw [h] at heq
    simp only [Prod.mk.injEq, Option.some.injEq] at heq
    obtain ⟨hr, hst, hw⟩ := heq
    subst hr hst hw
    exact ⟨e, hfind, by rw [hsha], by omega, fun _ => rfl⟩
  · rw [h] at heq
    simp only [Prod.mk.injEq, Option.some.injEq] at heq
    obtain ⟨hr, hst, hw⟩ := heq
    subst hr hst hw
    exact ⟨curatedBytes c, Store.find_put_self .., rfl, fun _ => rfl, by omega⟩

/-- Witness for C4 at a concrete input: the constant digest function, an
empty store, base key `uploads/m1` and empty content. -/
theorem curate_file_checksum_integrity_witness :
    ∃ b, Store.find (Store.put [] (curatedKeyOf "uploads/m1".toList) (curatedBytes []))
        (CurationResult.curated_key
          ⟨curatedKeyOf "uploads/m1".toList, 0, "sha256:"⟩) = some b ∧
      CurationResult.curated_checksum
          ⟨curatedKeyOf "uploads/m1".toList, 0, "sha256:"⟩ =
        "sha256:" ++ (fun _ : List Nat => "") b ∧
      (0 < 1 → b = curatedBytes []) ∧
      (1 = 0 → Store.put [] (curatedKeyOf "uploads/m1".toList) (curatedBytes []) = []) :=
  curate_file_checksum_integrity (fun _ => "") noFaults [] "uploads/m1".toList []
    ⟨curatedKeyOf "uploads/m1".toList, 0, "sha256:"⟩
    (Store.put [] (curatedKeyOf "uploads/m1".toList) (curatedBytes [])) 1 (by decide)

/-- Claim C7: when the store rejects the tagged curated write with a
permission (`AccessDenied`) or tag-validation (`InvalidTag`) error, the
Curator retries the write exactly once without tags and curation still
succeeds (two `put_object` calls issued, the normalized bytes stored);
any other store error during the write makes curation fail. -/
theorem curate_file_tagging_degradation (sha : List Nat → String) (st : Store) (bk : Key)
    (c : List Nat) (e : PutErr) (he : e = PutErr.AccessDenied ∨ e = PutErr.InvalidTag)
    (h : ∀ ex, Store.find st (curatedKeyOf bk) = some ex → sha ex ≠ sha (curatedBytes c)) :
    curate_file sha ⟨false, some e, false⟩ st bk c =
      (some ⟨curatedKeyOf bk, (curatedBytes c).length, "sha256:" ++ sha (curatedBytes c)⟩,
        Store.put st (curatedKeyOf bk) (curatedBytes c), 2) ∧
    (curate_file sha ⟨false, some PutErr.Other, false⟩ st bk c).1 = none := by
  constructor
  · simp only [curate_file, if_pos he]
    cases hfind : Store.find st (curatedKeyOf bk) with
    | none => simp
    | some ex => simp [h ex hfind]
  · simp only [curate_file]
    cases hfind : Store.find st (curatedKeyOf bk) with
    | none => simp
    | some ex => simp [h ex hfind]

/-- Witness for C7 at a concrete input: `AccessDenied` on the tagged put,
an empty store, base key `uploads/m1` and empty content. -/
theorem curate_file_tagging_degradation_witness :
    curate_file (fun _ => "") ⟨false, some PutErr.AccessDenied, false⟩ [] "uploads/m1".toList [] =
      (some ⟨curatedKeyOf "uploads/m1".toList, (curatedBytes []).length, "sha256:" ++ (fun _ : List Nat => "") (curatedBytes [])⟩,
        Store.put [] (curatedKeyOf "uploads/m1".toList) (curatedBytes []), 2) ∧
    (curate_file (fun _ => "") ⟨false, some PutErr.Other, false⟩ [] "uploads/m1".toList []).1 = none :=
  curate_file_tagging_degradation (fun _ => "") [] "uploads/m1".toList [] PutErr.AccessDenied
    (Or.inl rfl) (by intro ex hex; simp [Store.find] at hex)

/-- Claim C9: the curated key a successful curation targets is
`curated/<basename of the base key>.norm.txt`, so it depends only on the
final path component of the base key, and any two base keys sharing that
final component are curated to the identical key (their curated outputs
collide). -/
theorem curated_key_collision (sha : List Nat → String) (f : Faults) (st : Store) (bk : Key)
    (c : List Nat) (r : CurationResult) (h : (curate_file sha f st bk c).1 = some r) :
    r.curated_key = "curated/".toList ++ basename bk ++ ".norm.txt".toList ∧
    ∀ bk', basename bk' = basename bk → curatedKeyOf bk' = curatedKeyOf bk := by
  refine ⟨?_, fun bk' hb => by simp [curatedKeyOf, hb]⟩
  rcases curate_file_cases sha f st bk c with ⟨h1, _⟩ | ⟨e, _, _, heq⟩ | ⟨w', _, heq⟩
  · rw [h] at h1; cases h1
  · rw [heq] at h
    simp only [Option.some.injEq] at h
    rw [← h]; rfl
  · rw [heq] at h
    simp only [Option.some.injEq] at h
    rw [← h]; rfl

/-- Witness for C9 at a concrete input: two base keys `uploads/a/x` and
`uploads/b/x` differing only in their directory, curated from an empty
store. -/
theorem curated_key_collision_witness :
    (CurationResult.curated_key
        ⟨curatedKeyOf "uploads/a/x".toList, 0, "sha256:"⟩ =
      "curated/".toList ++ basename "uploads/a/x".toList ++ ".norm.txt".toList ∧
    ∀ bk', basename bk' = basename "uploads/a/x".toList →
      curatedKeyOf bk' = curatedKeyOf "uploads/a/x".toList) ∧
    basename "uploads/b/x".toList = basename "uploads/a/x".toList :=
  ⟨curated_key_collision (fun _ => "") noFaults [] "uploads/a/x".toList []
    ⟨curatedKeyOf "uploads/a/x".toList, 0, "sha256:"⟩ (by decide), by decide⟩

/-! ### Claim theorems: the IngestionPipeline -/

/-- Claim C5, counterexample: a run whose store listing raises during pair
discovery (`listing = none`, so discovery returns an empty pair list with a
logged cause and zero pairs succeed) reports overall SUCCESS and the
process exits with code 0 — `ingest` returns `True` for an empty pair
list (lines 264-266) without distinguishing a discovery error from a
genuinely empty prefix, so the claim that such a run reports failure and
exits non-zero is false. -/
theorem ingest_discovery_error_reports_success :
    (ingest (fun _ => "") true [0] none [] (fun _ => noFaults) true).success = true ∧
    exitCode (ingest (fun _ => "") true [0] none [] (fun _ => noFaults) true).success = 0 := by
  constructor <;> rfl

/-- Claim C5 (amended): a store error during discovery yields an empty pair
list and the run reports success (exit code 0), indistinguishable from an
empty prefix; partial pair failures reduce counts but never change the
exit status — with the health check passed, the run's success flag depends
only on whether any manifest entries were produced and, if so, on the
manifest write outcome. -/
theorem ingest_exit_status_characterization (sha : List Nat → String)
    (hb : List Nat) (listing : Option (List Key)) (st0 : Store) (faults : Key → Faults)
    (mOk : Bool) :
    ((ingest sha true hb none st0 faults mOk).success = true ∧
      exitCode (ingest sha true hb none st0 faults mOk).success = 0) ∧
    (ingest sha true hb listing st0 faults mOk).success =
      (if (ingest sha true hb listing st0 faults mOk).entries.isEmpty then true else mOk) := by
  refine ⟨⟨rfl, rfl⟩, ?_⟩
  cases listing with
  | none => rfl
  | some ks =>
    simp only [ingest, Bool.true_eq_false, if_false]
    split_ifs <;> simp_all

/-- Claim C8: a run in which discovery returns zero pairs (an empty or
error listing) reports success with exit code 0, writes no manifest
object, issues no curated write, and leaves the store touched only by the
health-check write. -/
theorem ingest_empty_discovery_success (sha : List Nat → String) (hb : List Nat)
    (listing : Option (List Key)) (st0 : Store) (faults : Key → Faults) (mOk : Bool)
    (h : (match listing with | none => [] | some ks => discover_pairs ks) = ([] : List (Key × Key × Key))) :
    ingest sha true hb listing st0 faults mOk =
      ⟨true, false, [], Store.put st0 healthKey hb, 0, 0⟩ ∧
    exitCode (ingest sha true hb listing st0 faults mOk).success = 0 := by
  have : ingest sha true hb listing st0 faults mOk =
      ⟨true, false, [], Store.put st0 healthKey hb, 0, 0⟩ := by
    simp only [ingest, Bool.true_eq_false, if_false, h, List.isEmpty_nil, if_true]
  exact ⟨this, by rw [this]; rfl⟩

/-- Witness for C8 at a concrete input: a listing containing one unpaired
`.json` key, which discovery turns into zero pairs. -/
theorem ingest_empty_discovery_success_witness :
    ingest (fun _ => "") true [0] (some ["uploads/only.json".toList]) [] (fun _ => noFaults)
        true =
      ⟨true, false, [], Store.put [] healthKey [0], 0, 0⟩ ∧
    exitCode (ingest (fun _ => "") true [0] (some ["uploads/only.json".toList]) []
        (fun _ => noFaults) true).success = 0 :=
  ingest_empty_discovery_success (fun _ => "") [0] (some ["uploads/only.json".toList]) []
    (fun _ => noFaults) true (by decide)

/-- Claim C6: the manifest entry list is exactly a concatenation of
two-entry chunks, one chunk per successfully processed pair (the first
entry the structured member without curation fields, the second the text
member carrying the curation result); a pair that fails at any stage
(either fetch, or curation) contributes zero entries while processing
continues, so the entry count is twice the processed-pair count and the
processed count never exceeds the discovered-pair count. -/
theorem processLoop_manifest_completeness (sha : List Nat → String) (faults : Key → Faults)
    (pairs : List (Key × Key × Key)) (st : Store) :
    ∃ chunks : List (ManifestEntry × ManifestEntry),
      (processLoop sha faults pairs st).1 = chunks.flatMap (fun c => [c.1, c.2]) ∧
      chunks.length = (processLoop sha faults pairs st).2.2.2 ∧
      (processLoop sha faults pairs st).1.length = 2 * (processLoop sha faults pairs st).2.2.2 ∧
      (processLoop sha faults pairs st).2.2.2 ≤ pairs.length ∧
      ∀ c ∈ chunks, c.1.etype = "aws_transcribe_json" ∧ c.1.curated = none ∧
        c.2.etype = "minutes_txt" ∧ (c.2.curated).isSome = true := by
  induction pairs generalizing st with
  | nil => exact ⟨[], rfl, rfl, rfl, Nat.le_refl 0, by simp⟩
  | cons p rest ih =>
    obtain ⟨bk, jk, tk⟩ := p
    simp only [processLoop]
    cases hj : Store.find st jk with
    | none =>
      obtain ⟨chunks, h1, h2, h3, h4, h5⟩ := ih st
      exact ⟨chunks, h1, h2, h3, Nat.le_succ_of_le h4, h5⟩
    | some jb =>
      cases ht : Store.find st tk with
      | none =>
        obtain ⟨chunks, h1, h2, h3, h4, h5⟩ := ih st
        exact ⟨chunks, h1, h2, h3, Nat.le_succ_of_le h4, h5⟩
      | some tb =>
        rcases hc : curate_file sha (faults bk) st bk tb with ⟨ro, st1, w⟩
        cases ro with
        | none =>
          simp only [hc]
          obtain ⟨chunks, h1, h2, h3, h4, h5⟩ := ih st1
          exact ⟨chunks, h1, h2, h3, Nat.le_succ_of_le h4, h5⟩
        | some r =>
          simp only [hc]
          obtain ⟨chunks, h1, h2, h3, h4, h5⟩ := ih st1
          refine ⟨(jsonEntryOf sha jk jb, txtEntryOf sha tk tb r) :: chunks, ?_, ?_, ?_, ?_, ?_⟩
          · simp [h1]
          · simp [h2]
          · simp only [List.length_cons, h3]; omega
          · simp only [List.length_cons]; omega
          · intro c hc'
            rcases List.mem_cons.mp hc' with hh | hh
            · subst hh; exact ⟨rfl, rfl, rfl, rfl⟩
            · exact h5 c hh

/-! ### Discovery lemmas (claim C3) -/

theorem findB_updAssoc_self (b : Key) (g : BaseFiles → BaseFiles)
    (m : List (Key × BaseFiles)) :
    findB (updAssoc b g m) b = some (g ((findB m b).getD emptyBF)) := by
  induction m with
  | nil => simp [updAssoc, findB, emptyBF]
  | cons p rest ih =>
    obtain ⟨bs, v⟩ := p
    simp only [updAssoc]
    by_cases h : bs = b
    · simp [h, findB]
    · simp [h, findB, ih]

theorem findB_updAssoc_ne (b b' : Key) (g : BaseFiles → BaseFiles)
    (m : List (Key × BaseFiles)) (h : b' ≠ b) :
    findB (updAssoc b' g m) b = findB m b := by
  induction m with
  | nil => simp [updAssoc, findB, h]
  | cons p rest ih =>
    obtain ⟨bs, v⟩ := p
    simp only [updAssoc]
    by_cases hb : bs = b'
    · subst hb; simp [findB, h]
    · simp only [if_neg hb, findB, ih]

theorem suffix_take_eq {s k : Key} (h : s.isSuffixOf k = true) :
    k = k.take (k.length - s.length) ++ s := by
  obtain ⟨t, ht⟩ := List.isSuffixOf_iff_suffix.mp h
  subst ht
  rw [List.length_append, Nat.add_sub_cancel, List.take_left]

theorem take_append_ext (b s : Key) :
    (b ++ s).take ((b ++ s).length - s.length) = b := by
  rw [List.length_append, Nat.add_sub_cancel, List.take_left]

theorem jsonExt_not_suffix_of_txt (b : Key) :
    jsonExt.isSuffixOf (b ++ txtExt) = false := by
  by_contra h
  rw [Bool.not_eq_false, List.isSuffixOf_iff_suffix] at h
  obtain ⟨t, ht⟩ := h
  have h1 : (t ++ jsonExt).getLast? = some 'n' := by
    rw [List.getLast?_append]; rfl
  have h2 : (b ++ txtExt).getLast? = some 't' := by
    rw [List.getLast?_append]; rfl
  rw [ht, h2] at h1
  cases h1

theorem jsOf_scanLoop (ks : List Key) : ∀ (m : List (Key × BaseFiles)) (b : Key),
    jsOf (scanLoop m ks) b =
      if (b ++ jsonExt) ∈ ks then some (b ++ jsonExt) else jsOf m b := by
  induction ks with
  | nil => intro m b; simp [scanLoop]
  | cons k rest ih =>
    intro m b
    simp only [scanLoop]
    rw [ih]
    by_cases h1 : (b ++ jsonExt) ∈ rest
    · simp [h1, List.mem_cons]
    · have h1' : ((b ++ jsonExt) ∈ rest) = False := by simp [h1]
      by_cases h2 : k = b ++ jsonExt
      · subst h2
        have hsuf : jsonExt.isSuffixOf (b ++ jsonExt) = true :=
          List.isSuffixOf_iff_suffix.mpr ⟨b, rfl⟩
        have hbase : (b ++ jsonExt).take ((b ++ jsonExt).length - 5) = b :=
          take_append_ext b jsonExt
        simp only [scanStep, hsuf, if_true, hbase, h1', List.mem_cons, or_false, if_pos rfl]
        simp [jsOf, findB_updAssoc_self, setJson]
      · have h2' : ¬((b ++ jsonExt) = k) := fun h => h2 h.symm
        simp only [List.mem_cons, h1', h2', or_false, if_false, eq_self_iff_true]
        simp only [scanStep]
        by_cases hs : jsonExt.isSuffixOf k = true
        · rw [if_pos hs]
          have hne : k.take (k.length - 5) ≠ b := by
            intro hEq
            exact h2 ((suffix_take_eq hs).trans
              (by rw [show List.length jsonExt = 5 from rfl, hEq]))
          simp [jsOf, findB_updAssoc_ne _ _ _ _ hne]
        · rw [if_neg hs]
          by_cases htx : txtExt.isSuffixOf k = true
          · rw [if_pos htx]
            by_cases hb : k.take (k.length - 4) = b
            · rw [hb]
              simp [jsOf, findB_updAssoc_self, setTxt]
            · simp [jsOf, findB_updAssoc_ne _ _ _ _ hb]
          · rw [if_neg htx]

theorem txOf_scanLoop (ks : List Key) : ∀ (m : List (Key × BaseFiles)) (b : Key),
    txOf (scanLoop m ks) b =
      if (b ++ txtExt) ∈ ks then some (b ++ txtExt) else txOf m b := by
  induction ks with
  | nil => intro m b; simp [scanLoop]
  | cons k rest ih =>
    intro m b
    simp only [scanLoop]
    rw [ih]
    by_cases h1 : (b ++ txtExt) ∈ rest
    · simp [h1, List.mem_cons]
    · have h1' : ((b ++ txtExt) ∈ rest) = False := by simp [h1]
      by_cases h2 : k = b ++ txtExt
      · subst h2
        have hjs : jsonExt.isSuffixOf (b ++ txtExt) = false := jsonExt_not_suffix_of_txt b
        have hsuf : txtExt.isSuffixOf (b ++ txtExt) = true :=
          List.isSuffixOf_iff_suffix.mpr ⟨b, rfl⟩
        have hbase : (b ++ txtExt).take ((b ++ txtExt).length - 4) = b :=
          take_append_ext b txtExt
        simp only [scanStep, hjs, Bool.false_eq_true, if_false, hsuf, if_true, hbase, h1',
          List.mem_cons, or_false, if_pos rfl]
        simp [txOf, findB_updAssoc_self, setTxt]
      · have h2' : ¬((b ++ txtExt) = k) := fun h => h2 h.symm
        simp only [List.mem_cons, h1', h2', or_false, if_false, eq_self_iff_true]
        simp only [scanStep]
        by_cases hs : jsonExt.isSuffixOf k = true
        · rw [if_pos hs]
          by_cases hb : k.take (k.length - 5) = b
          · rw [hb]
            simp [txOf, findB_updAssoc_self, setJson]
          · simp [txOf, findB_updAssoc_ne _ _ _ _ hb]
        · rw [if_neg hs]
          by_cases htx : txtExt.isSuffixOf k = true
          · rw [if_pos htx]
            have hne : k.take (k.length - 4) ≠ b := by
              intro hEq
              exact h2 ((suffix_take_eq htx).trans
                (by rw [show List.length txtExt = 4 from rfl, hEq]))
            simp [txOf, findB_updAssoc_ne _ _ _ _ hne]
          · rw [if_neg htx]

theorem mem_keys_updAssoc (b b' : Key) (g : BaseFiles → BaseFiles)
    (m : List (Key × BaseFiles)) :
    b ∈ (updAssoc b' g m).map Prod.fst ↔ b ∈ m.map Prod.fst ∨ b = b' := by
  induction m with
  | nil => simp [updAssoc, eq_comm]
  | cons p rest ih =>
    obtain ⟨bs, v⟩ := p
    simp only [updAssoc]
    by_cases h : bs = b'
    · subst h
      simp only [eq_self_iff_true, if_true, List.map_cons, List.mem_cons]
      tauto
    · simp only [if_neg h, List.map_cons, List.mem_cons, ih]
      tauto

theorem nodup_keys_updAssoc (b' : Key) (g : BaseFiles → BaseFiles)
    (m : List (Key × BaseFiles)) (h : (m.map Prod.fst).Nodup) :
    ((updAssoc b' g m).map Prod.fst).Nodup := by
  induction m with
  | nil => simp [updAssoc]
  | cons p rest ih =>
    obtain ⟨bs, v⟩ := p
    simp only [List.map_cons, List.nodup_cons] at h
    obtain ⟨hnotin, hnd⟩ := h
    simp only [updAssoc]
    by_cases hb : bs = b'
    · simp only [if_pos hb, List.map_cons, List.nodup_cons]
      exact ⟨hnotin, hnd⟩
    · simp only [if_neg hb, List.map_cons, List.nodup_cons]
      refine ⟨?_, ih hnd⟩
      rw [mem_keys_updAssoc]
      rintro (hin | hEq)
      · exact hnotin hin
      · exact hb hEq

theorem nodup_keys_scanStep (m : List (Key × BaseFiles)) (k : Key)
    (h : (m.map Prod.fst).Nodup) : ((scanStep m k).map Prod.fst).Nodup := by
  simp only [scanStep]
  by_cases hs : jsonExt.isSuffixOf k = true
  · rw [if_pos hs]; exact nodup_keys_updAssoc _ _ _ h
  · rw [if_neg hs]
    by_cases ht : txtExt.isSuffixOf k = true
    · rw [if_pos ht]; exact nodup_keys_updAssoc _ _ _ h
    · rw [if_neg ht]; exact h

theorem nodup_keys_scanLoop (ks : List Key) : ∀ (m : List (Key × BaseFiles)),
    (m.map Prod.fst).Nodup → ((scanLoop m ks).map Prod.fst).Nodup := by
  induction ks with
  | nil => intro m h; exact h
  | cons k rest ih => intro m h; exact ih _ (nodup_keys_scanStep m k h)

theorem findB_eq_some_iff_mem : ∀ (m : List (Key × BaseFiles)) (b : Key) (v : BaseFiles),
    (m.map Prod.fst).Nodup → (findB m b = some v ↔ (b, v) ∈ m) := by
  intro m
  induction m with
  | nil => intro b v _; simp [findB]
  | cons p rest ih =>
    intro b v hnd
    obtain ⟨bs, w⟩ := p
    simp only [List.map_cons, List.nodup_cons] at hnd
    obtain ⟨hnotin, hnd'⟩ := hnd
    simp only [findB, List.mem_cons]
    by_cases h : bs = b
    · subst h
      simp only [eq_self_iff_true, if_true, Option.some.injEq, Prod.mk.injEq]
      constructor
      · intro h'; exact Or.inl ⟨trivial, h'.symm⟩
      · rintro (⟨-, h'⟩ | h')
        · exact h'.symm
        · exact absurd (List.mem_map.mpr ⟨(bs, v), h', rfl⟩) hnotin
    · simp only [if_neg h, ih b v hnd', Prod.mk.injEq]
      constructor
      · exact Or.inr
      · rintro (⟨h', -⟩ | h')
        · exact absurd h'.symm h
        · exact h'

theorem discover_pairs_mem_iff (keys : List Key) (b j t : Key) :
    (b, j, t) ∈ discover_pairs keys ↔
      ∃ v : BaseFiles, (b, v) ∈ scanLoop [] keys ∧ v.js = some j ∧ v.tx = some t := by
  simp only [discover_pairs, List.mem_filterMap]
  constructor
  · rintro ⟨⟨b', v⟩, hmem, heq⟩
    cases hjs : v.js with
    | none => rw [hjs] at heq; cases heq
    | some j' =>
      cases htx : v.tx with
      | none => rw [hjs, htx] at heq; cases heq
      | some t' =>
        rw [hjs, htx] at heq
        simp only [Option.some.injEq, Prod.mk.injEq] at heq
        obtain ⟨hb, hj, ht⟩ := heq
        subst hb hj ht
        exact ⟨v, hmem, hjs, htx⟩
  · rintro ⟨v, hmem, hjs, htx⟩
    exact ⟨(b, v), hmem, by rw [hjs, htx]⟩

/-- Claim C3: a base key appears in the discovered pairs if and only if
both `base ++ ".json"` and `base ++ ".txt"` are present in the scanned key
set; and when it does appear, the pair's members are exactly those two
keys.  A base observed with only one of the two extensions is therefore
excluded from the result. -/
theorem discover_pairs_iff (keys : List Key) (b : Key) :
    (∃ j t, (b, j, t) ∈ discover_pairs keys) ↔
      ((b ++ jsonExt) ∈ keys ∧ (b ++ txtExt) ∈ keys) := by
  have hnd : ((scanLoop [] keys).map Prod.fst).Nodup :=
    nodup_keys_scanLoop keys [] List.nodup_nil
  have hjs := jsOf_scanLoop keys [] b
  have htx := txOf_scanLoop keys [] b
  constructor
  · rintro ⟨j, t, hmem⟩
    obtain ⟨v, hv, hvj, hvt⟩ := (discover_pairs_mem_iff keys b j t).mp hmem
    have hfind : findB (scanLoop [] keys) b = some v :=
      (findB_eq_some_iff_mem _ b v hnd).mpr hv
    constructor
    · by_contra hin
      rw [if_neg hin] at hjs
      rw [jsOf, hfind] at hjs
      simp only [Option.getD_some, jsOf, findB, Option.getD_none, emptyBF] at hjs
      rw [hvj] at hjs
      cases hjs
    · by_contra hin
      rw [if_neg hin] at htx
      rw [txOf, hfind] at htx
      simp only [Option.getD_some, txOf, findB, Option.getD_none, emptyBF] at htx
      rw [hvt] at htx
      cases htx
  · rintro ⟨hj, ht⟩
    rw [if_pos hj] at hjs
    rw [if_pos ht] at htx
    cases hfind : findB (scanLoop [] keys) b with
    | none =>
      rw [jsOf, hfind] at hjs
      simp [emptyBF] at hjs
    | some v =>
      rw [jsOf, hfind] at hjs
      rw [txOf, hfind] at htx
      simp only [Option.getD_some] at hjs htx
      exact ⟨b ++ jsonExt, b ++ txtExt, (discover_pairs_mem_iff keys b _ _).mpr
        ⟨v, (findB_eq_some_iff_mem _ b v hnd).mp hfind, hjs, htx⟩⟩

/-! ### Normalizer lemmas: characters of the output (claims C10 and C1) -/

theorem collapseSpacesAux_subset : ∀ (s : List Nat) (p : Bool), collapseSpacesAux p s ⊆ s := by
  intro s
  induction s with
  | nil => intro p; simp [collapseSpacesAux]
  | cons d rest ih =>
    intro p
    simp only [collapseSpacesAux]
    by_cases hd : d = 32
    · subst hd
      simp only [if_pos rfl]
      cases p with
      | true =>
        simp only [if_true]
        exact (ih true).trans (List.subset_cons_self 32 rest)
      | false =>
        simp only [Bool.false_eq_true, if_false]
        exact List.cons_subset_cons 32 (ih true)
    · simp only [if_neg hd]
      exact List.cons_subset_cons d (ih false)

theorem replaceCrlf_subset : ∀ s : List Nat, replaceCrlf s ⊆ s := by
  intro s
  induction s using replaceCrlf.induct with
  | case1 rest ih =>
    simp only [replaceCrlf]
    refine List.cons_subset.mpr ⟨by simp, ?_⟩
    exact (ih.trans (List.subset_cons_self 10 rest)).trans (List.subset_cons_self 13 (10 :: rest))
  | case2 c rest hno ih =>
    rw [replaceCrlf.eq_2 c rest hno]
    exact List.cons_subset_cons c ih
  | case3 => simp [replaceCrlf]

theorem collapseNewlinesAux_nl_lt {run : Nat} (ds : List Nat) (h : run < 2) :
    collapseNewlinesAux run (10 :: ds) = 10 :: collapseNewlinesAux (run + 1) ds := by
  simp [collapseNewlinesAux, h]

theorem collapseNewlinesAux_nl_ge {run : Nat} (ds : List Nat) (h : ¬run < 2) :
    collapseNewlinesAux run (10 :: ds) = collapseNewlinesAux run ds := by
  simp [collapseNewlinesAux, h]

theorem collapseNewlinesAux_other {run d : Nat} (ds : List Nat) (h : ¬d = 10) :
    collapseNewlinesAux run (d :: ds) = d :: collapseNewlinesAux 0 ds := by
  simp [collapseNewlinesAux, h]

theorem mem_collapseNewlinesAux {c : Nat} : ∀ (run : Nat) (s : List Nat),
    c ∈ collapseNewlinesAux run s → c = 10 ∨ c ∈ s := by
  intro run s
  induction run, s using collapseNewlinesAux.induct with
  | case1 run => simp [collapseNewlinesAux]
  | case2 run ds hlt ih =>
    rw [collapseNewlinesAux_nl_lt ds hlt]
    intro h
    rcases List.mem_cons.mp h with h' | h'
    · exact Or.inl h'
    · rcases ih h' with h'' | h''
      · exact Or.inl h''
      · exact Or.inr (List.mem_cons_of_mem 10 h'')
  | case3 run ds hlt ih =>
    rw [collapseNewlinesAux_nl_ge ds hlt]
    intro h
    rcases ih h with h' | h'
    · exact Or.inl h'
    · exact Or.inr (List.mem_cons_of_mem 10 h')
  | case4 run d ds hne ih =>
    rw [collapseNewlinesAux_other ds hne]
    intro h
    rcases List.mem_cons.mp h with h' | h'
    · exact Or.inr (h' ▸ List.mem_cons_self d ds)
    · rcases ih h' with h'' | h''
      · exact Or.inl h''
      · exact Or.inr (List.mem_cons_of_mem d h'')

theorem mem_crToLf {c : Nat} {s : List Nat} (h : c ∈ crToLf s) : c = 10 ∨ c ∈ s := by
  simp only [crToLf, List.mem_map] at h
  obtain ⟨a, ha, hfa⟩ := h
  by_cases h13 : a = 13
  · rw [if_pos h13] at hfa; exact Or.inl hfa.symm
  · rw [if_neg h13] at hfa; exact Or.inr (hfa ▸ ha)

theorem not_mem_crToLf_13 (s : List Nat) : 13 ∉ crToLf s := by
  intro h
  simp only [crToLf, List.mem_map] at h
  obtain ⟨a, -, hfa⟩ := h
  by_cases h13 : a = 13
  · rw [if_pos h13] at hfa; cases hfa
  · rw [if_neg h13] at hfa; exact h13 hfa

theorem dropTrailing_isPre : ∀ s : List Nat, dropTrailing s <+: s := by
  intro s
  induction s using dropTrailing.induct with
  | case1 => exact List.prefix_refl []
  | case2 d ds r hcond ih =>
    simp only [dropTrailing]
    rw [if_pos hcond]
    exact List.nil_prefix
  | case3 d ds r hcond ih =>
    simp only [dropTrailing]
    rw [if_neg hcond]
    exact List.cons_prefix_cons.mpr ⟨rfl, ih⟩

theorem pyStrip_subset (s : List Nat) : pyStrip s ⊆ s := by
  intro c hc
  exact (List.dropWhile_suffix pyIsSpace).subset
    ((dropTrailing_isPre (s.dropWhile pyIsSpace)).subset hc)

/-- Every character of the normalized output either survives from the
format-filtered, NFC-normalized text or is a literal newline that the
line-break steps introduced. -/
theorem mem_normalize_text {c : Nat} {s : List Nat} (h : c ∈ normalize_text s) :
    c = 10 ∨ c ∈ List.filter (fun c => !isCf c) (bomStrip (nfcModel s)) := by
  have h1 := pyStrip_subset _ h
  rcases mem_collapseNewlinesAux 0 _ h1 with h2 | h2
  · exact Or.inl h2
  rcases mem_crToLf h2 with h3 | h3
  · exact Or.inl h3
  have h4 := replaceCrlf_subset _ h3
  exact Or.inr (collapseSpacesAux_subset _ false h4)

/-- No carriage return survives into the normalized output. -/
theorem normalize_text_no_cr (s : List Nat) : 13 ∉ normalize_text s := by
  intro h
  have h1 := pyStrip_subset _ h
  rcases mem_collapseNewlinesAux 0 _ h1 with h2 | h2
  · cases h2
  exact not_mem_crToLf_13 _ h2

/-- No format-category code point survives into the normalized output. -/
theorem normalize_text_no_fmt (s : List Nat) : ∀ c ∈ normalize_text s, isCf c = false := by
  intro c hc
  rcases mem_normalize_text hc with h | h
  · subst h; decide
  · have := (List.mem_filter.mp h).2
    simpa using this

/-! ### Normalizer lemmas: no two consecutive spaces -/

theorem hasDoubleSpace_cons (c : Nat) (rest : List Nat) :
    hasDoubleSpace (c :: rest) =
      ((decide (c = 32) && headIs 32 rest) || hasDoubleSpace rest) := rfl

theorem hasDoubleSpace_tail {c : Nat} {rest : List Nat}
    (h : hasDoubleSpace (c :: rest) = false) : hasDoubleSpace rest = false := by
  rw [hasDoubleSpace_cons, Bool.or_eq_false_iff] at h
  exact h.2

theorem headIs_of_hasDoubleSpace_space {rest : List Nat}
    (h : hasDoubleSpace (32 :: rest) = false) : headIs 32 rest = false := by
  rw [hasDoubleSpace_cons, Bool.or_eq_false_iff, Bool.and_eq_false_iff] at h
  rcases h.1 with h' | h'
  · simp at h'
  · exact h'

theorem collapseSpacesAux_space_true (rest : List Nat) :
    collapseSpacesAux true (32 :: rest) = collapseSpacesAux true rest := by
  simp [collapseSpacesAux]

theorem collapseSpacesAux_space_false (rest : List Nat) :
    collapseSpacesAux false (32 :: rest) = 32 :: collapseSpacesAux true rest := by
  simp [collapseSpacesAux]

theorem collapseSpacesAux_other {d : Nat} (h : ¬d = 32) (p : Bool) (rest : List Nat) :
    collapseSpacesAux p (d :: rest) = d :: collapseSpacesAux false rest := by
  simp [collapseSpacesAux, h]

theorem collapseSpacesAux_no_double : ∀ (s : List Nat) (p : Bool),
    hasDoubleSpace (collapseSpacesAux p s) = false ∧
      (p = true → headIs 32 (collapseSpacesAux p s) = false) := by
  intro s
  induction s with
  | nil => intro p; exact ⟨rfl, fun _ => rfl⟩
  | cons d rest ih =>
    intro p
    by_cases hd : d = 32
    · subst hd
      cases p with
      | true =>
        rw [collapseSpacesAux_space_true]
        exact ⟨(ih true).1, fun _ => (ih true).2 rfl⟩
      | false =>
        rw [collapseSpacesAux_space_false]
        refine ⟨?_, fun h => Bool.noConfusion h⟩
        rw [hasDoubleSpace_cons, (ih true).2 rfl, (ih true).1]
        simp
    · rw [collapseSpacesAux_other hd]
      refine ⟨?_, fun _ => by simp [headIs, hd]⟩
      rw [hasDoubleSpace_cons, (ih false).1]
      simp [hd]

theorem headIs_32_replaceCrlf {s : List Nat} (h : headIs 32 (replaceCrlf s) = true) :
    headIs 32 s = true := by
  induction s using replaceCrlf.induct with
  | case1 rest ih => simp only [replaceCrlf, headIs] at h; cases h
  | case2 c rest hno ih => rw [replaceCrlf.eq_2 c rest hno] at h; exact h
  | case3 => exact h

theorem replaceCrlf_no_double : ∀ s : List Nat, hasDoubleSpace s = false →
    hasDoubleSpace (replaceCrlf s) = false := by
  intro s
  induction s using replaceCrlf.induct with
  | case1 rest ih =>
    intro h
    simp only [replaceCrlf, hasDoubleSpace_cons]
    rw [ih (hasDoubleSpace_tail (hasDoubleSpace_tail h))]
    simp
  | case2 c rest hno ih =>
    intro h
    rw [replaceCrlf.eq_2 c rest hno, hasDoubleSpace_cons,
      ih (hasDoubleSpace_tail h), Bool.or_false]
    by_cases hc : c = 32
    · subst hc
      rw [Bool.and_eq_false_iff]
      right
      by_contra hh
      rw [Bool.not_eq_false] at hh
      have h1 := headIs_32_replaceCrlf hh
      rw [headIs_of_hasDoubleSpace_space h] at h1
      cases h1
    · simp [hc]
  | case3 => intro h; exact h

theorem headIs_32_crToLf (s : List Nat) : headIs 32 (crToLf s) = headIs 32 s := by
  cases s with
  | nil => rfl
  | cons c rest =>
    simp only [crToLf, List.map_cons, headIs]
    by_cases hc : c = 13
    · subst hc; simp
    · rw [if_neg hc]

theorem crToLf_no_double : ∀ s : List Nat,
    hasDoubleSpace (crToLf s) = hasDoubleSpace s := by
  intro s
  induction s with
  | nil => rfl
  | cons c rest ih =>
    show hasDoubleSpace ((if c = 13 then 10 else c) :: crToLf rest) = _
    rw [hasDoubleSpace_cons, hasDoubleSpace_cons, ih, headIs_32_crToLf]
    by_cases hc : c = 13
    · subst hc; simp
    · rw [if_neg hc]

theorem headIs_32_collapseNewlinesAux (s : List Nat) :
    headIs 32 (collapseNewlinesAux 0 s) = headIs 32 s := by
  cases s with
  | nil => rfl
  | cons c rest =>
    by_cases hc : c = 10
    · subst hc
      rw [collapseNewlinesAux_nl_lt rest (by omega)]
      rfl
    · rw [collapseNewlinesAux_other rest hc]
      rfl

theorem collapseNewlinesAux_no_double : ∀ (run : Nat) (s : List Nat),
    hasDoubleSpace s = false → hasDoubleSpace (collapseNewlinesAux run s) = false := by
  intro run s
  induction run, s using collapseNewlinesAux.induct with
  | case1 run => intro h; exact h
  | case2 run ds hlt ih =>
    intro h
    rw [collapseNewlinesAux_nl_lt ds hlt, hasDoubleSpace_cons, ih (hasDoubleSpace_tail h)]
    simp
  | case3 run ds hlt ih =>
    intro h
    rw [collapseNewlinesAux_nl_ge ds hlt]
    exact ih (hasDoubleSpace_tail h)
  | case4 run d ds hne ih =>
    intro h
    rw [collapseNewlinesAux_other ds hne, hasDoubleSpace_cons, ih (hasDoubleSpace_tail h),
      Bool.or_false]
    by_cases hd : d = 32
    · subst hd
      rw [headIs_32_collapseNewlinesAux, headIs_of_hasDoubleSpace_space h]
      simp
    · simp [hd]

/-! ### Normalizer lemmas: no three consecutive newlines -/

theorem hasTripleNewline_cons (c : Nat) (rest : List Nat) :
    hasTripleNewline (c :: rest) =
      ((decide (c = 10) && headIs 10 rest && headIs 10 rest.tail) ||
        hasTripleNewline rest) := rfl

theorem hasTripleNewline_tail {c : Nat} {rest : List Nat}
    (h : hasTripleNewline (c :: rest) = false) : hasTripleNewline rest = false := by
  rw [hasTripleNewline_cons, Bool.or_eq_false_iff] at h
  exact h.2

theorem leadNl_nl (rest : List Nat) : leadNl (10 :: rest) = leadNl rest + 1 := by
  simp [leadNl]

theorem leadNl_other {d : Nat} (h : ¬d = 10) (rest : List Nat) : leadNl (d :: rest) = 0 := by
  simp [leadNl, h]

theorem leadNl_ge_two {s : List Nat} (h1 : headIs 10 s = true)
    (h2 : headIs 10 s.tail = true) : 2 ≤ leadNl s := by
  cases s with
  | nil => cases h1
  | cons a t =>
    have ha : a = 10 := of_decide_eq_true h1
    subst ha
    cases t with
    | nil => cases h2
    | cons b u =>
      have hb : b = 10 := of_decide_eq_true h2
      subst hb
      rw [leadNl_nl, leadNl_nl]
      omega

theorem collapseNewlinesAux_no_triple : ∀ (run : Nat) (s : List Nat),
    leadNl (collapseNewlinesAux run s) ≤ 2 - run ∧
      hasTripleNewline (collapseNewlinesAux run s) = false := by
  intro run s
  induction run, s using collapseNewlinesAux.induct with
  | case1 run => exact ⟨Nat.zero_le _, rfl⟩
  | case2 run ds hlt ih =>
    rw [collapseNewlinesAux_nl_lt ds hlt]
    obtain ⟨ih1, ih2⟩ := ih
    constructor
    · rw [leadNl_nl]; omega
    · rw [hasTripleNewline_cons, ih2, Bool.or_false]
      by_cases hX : headIs 10 (collapseNewlinesAux (run + 1) ds) = true
      · by_cases hX2 : headIs 10 (collapseNewlinesAux (run + 1) ds).tail = true
        · exfalso
          have := leadNl_ge_two hX hX2
          omega
        · rw [Bool.not_eq_true] at hX2
          simp [hX2]
      · rw [Bool.not_eq_true] at hX
        simp [hX]
  | case3 run ds hlt ih =>
    rw [collapseNewlinesAux_nl_ge ds hlt]
    exact ih
  | case4 run d ds hne ih =>
    rw [collapseNewlinesAux_other ds hne]
    obtain ⟨ih1, ih2⟩ := ih
    constructor
    · rw [leadNl_other hne]; exact Nat.zero_le _
    · rw [hasTripleNewline_cons, ih2, Bool.or_false]
      simp [hne]

/-! ### Scanner monotonicity under prefixes and suffixes -/

theorem headIs_append {v : Nat} {l : List Nat} (r : List Nat) (h : headIs v l = true) :
    headIs v (l ++ r) = true := by
  cases l with
  | nil => cases h
  | cons a t => exact h

theorem hasDoubleSpace_cons_mono {x : Nat} {l : List Nat} (h : hasDoubleSpace l = true) :
    hasDoubleSpace (x :: l) = true := by
  rw [hasDoubleSpace_cons, h, Bool.or_true]

theorem hasDoubleSpace_append_right {l : List Nat} (t : List Nat)
    (h : hasDoubleSpace l = true) : hasDoubleSpace (t ++ l) = true := by
  induction t with
  | nil => exact h
  | cons x t' ih => exact hasDoubleSpace_cons_mono ih

theorem hasDoubleSpace_append_left : ∀ {l : List Nat} (r : List Nat),
    hasDoubleSpace l = true → hasDoubleSpace (l ++ r) = true := by
  intro l
  induction l with
  | nil => intro r h; cases h
  | cons c l' ih =>
    intro r h
    rw [hasDoubleSpace_cons, Bool.or_eq_true_iff] at h
    rcases h with h | h
    · rw [Bool.and_eq_true] at h
      rw [List.cons_append, hasDoubleSpace_cons, h.1, headIs_append r h.2]
      rfl
    · exact hasDoubleSpace_cons_mono (ih r h)

theorem hasTripleNewline_cons_mono {x : Nat} {l : List Nat}
    (h : hasTripleNewline l = true) : hasTripleNewline (x :: l) = true := by
  rw [hasTripleNewline_cons, h, Bool.or_true]

theorem hasTripleNewline_append_right {l : List Nat} (t : List Nat)
    (h : hasTripleNewline l = true) : hasTripleNewline (t ++ l) = true := by
  induction t with
  | nil => exact h
  | cons x t' ih => exact hasTripleNewline_cons_mono ih

theorem hasTripleNewline_append_left : ∀ {l : List Nat} (r : List Nat),
    hasTripleNewline l = true → hasTripleNewline (l ++ r) = true := by
  intro l
  induction l with
  | nil => intro r h; cases h
  | cons c l' ih =>
    intro r h
    rw [hasTripleNewline_cons, Bool.or_eq_true_iff] at h
    rcases h with h | h
    · rw [Bool.and_eq_true, Bool.and_eq_true] at h
      obtain ⟨⟨hc, h1⟩, h2⟩ := h
      cases l' with
      | nil => cases h1
      | cons a t =>
        have h1' : headIs 10 (a :: (t ++ r)) = true := h1
        have h2' : headIs 10 (t ++ r) = true := headIs_append r h2
        rw [List.cons_append, List.cons_append, hasTripleNewline_cons, hc, h1']
        rw [show (a :: (t ++ r)).tail = t ++ r from rfl, h2']
        rfl
    · exact hasTripleNewline_cons_mono (ih r h)

theorem hasDoubleSpace_of_suffix {l s : List Nat} (hs : l <:+ s)
    (h : hasDoubleSpace s = false) : hasDoubleSpace l = false := by
  by_contra hh
  rw [Bool.not_eq_false] at hh
  obtain ⟨t, rfl⟩ := hs
  rw [hasDoubleSpace_append_right t hh] at h
  cases h

theorem hasDoubleSpace_of_isPre {l s : List Nat} (hs : l <+: s)
    (h : hasDoubleSpace s = false) : hasDoubleSpace l = false := by
  by_contra hh
  rw [Bool.not_eq_false] at hh
  obtain ⟨t, rfl⟩ := hs
  rw [hasDoubleSpace_append_left t hh] at h
  cases h

theorem hasTripleNewline_of_suffix {l s : List Nat} (hs : l <:+ s)
    (h : hasTripleNewline s = false) : hasTripleNewline l = false := by
  by_contra hh
  rw [Bool.not_eq_false] at hh
  obtain ⟨t, rfl⟩ := hs
  rw [hasTripleNewline_append_right t hh] at h
  cases h

theorem hasTripleNewline_of_isPre {l s : List Nat} (hs : l <+: s)
    (h : hasTripleNewline s = false) : hasTripleNewline l = false := by
  by_contra hh
  rw [Bool.not_eq_false] at hh
  obtain ⟨t, rfl⟩ := hs
  rw [hasTripleNewline_append_left t hh] at h
  cases h

theorem pyStrip_no_double {s : List Nat} (h : hasDoubleSpace s = false) :
    hasDoubleSpace (pyStrip s) = false :=
  hasDoubleSpace_of_isPre (dropTrailing_isPre _)
    (hasDoubleSpace_of_suffix (List.dropWhile_suffix pyIsSpace) h)

theorem pyStrip_no_triple {s : List Nat} (h : hasTripleNewline s = false) :
    hasTripleNewline (pyStrip s) = false :=
  hasTripleNewline_of_isPre (dropTrailing_isPre _)
    (hasTripleNewline_of_suffix (List.dropWhile_suffix pyIsSpace) h)

/-! ### Trim lemmas -/

theorem head_dropWhile_not {p : Nat → Bool} : ∀ {s : List Nat} {c : Nat},
    (s.dropWhile p).head? = some c → p c = false := by
  intro s
  induction s with
  | nil => intro c h; cases h
  | cons d rest ih =>
    intro c h
    rw [List.dropWhile_cons] at h
    by_cases hd : p d = true
    · rw [if_pos hd] at h
      exact ih h
    · rw [if_neg hd] at h
      cases h
      rw [Bool.not_eq_true] at hd
      exact hd

theorem getLast_dropTrailing : ∀ {s : List Nat} {c : Nat},
    (dropTrailing s).getLast? = some c → pyIsSpace c = false := by
  intro s
  induction s with
  | nil => intro c h; cases h
  | cons d ds ih =>
    intro c h
    simp only [dropTrailing] at h
    by_cases hcond : (dropTrailing ds).isEmpty = true ∧ pyIsSpace d = true
    · rw [if_pos hcond] at h; cases h
    · rw [if_neg hcond] at h
      cases hr : dropTrailing ds with
      | nil =>
        rw [hr] at h
        have hc : c = d := by
          cases h
          rfl
        subst hc
        rw [hr] at hcond
        simp only [List.isEmpty_nil, true_and] at hcond
        rw [Bool.not_eq_true] at hcond
        exact hcond
      | cons e t =>
        rw [hr] at h
        rw [List.getLast?_cons_cons] at h
        exact ih (hr ▸ h)

theorem head_pyStrip {s : List Nat} {c : Nat} (h : (pyStrip s).head? = some c) :
    pyIsSpace c = false := by
  unfold pyStrip at h
  cases hq : dropTrailing (s.dropWhile pyIsSpace) with
  | nil => rw [hq] at h; cases h
  | cons c' t =>
    rw [hq] at h
    simp only [List.head?_cons, Option.some.injEq] at h
    subst h
    obtain ⟨rr, hrr⟩ := dropTrailing_isPre (s.dropWhile pyIsSpace)
    rw [hq] at hrr
    apply head_dropWhile_not (p := pyIsSpace) (s := s)
    rw [← hrr]
    rfl

/-- Claim C10: output invariants of the normalizer — for every input
string, the normalized output contains no carriage return, no
format-category (Cf) code point, no two consecutive ASCII spaces and no
three consecutive newlines, and neither starts nor ends with a
whitespace character. -/
theorem normalize_text_output_invariants (s : List Nat) :
    13 ∉ normalize_text s ∧
    (∀ c ∈ normalize_text s, isCf c = false) ∧
    hasDoubleSpace (normalize_text s) = false ∧
    hasTripleNewline (normalize_text s) = false ∧
    (∀ c, (normalize_text s).head? = some c → pyIsSpace c = false) ∧
    (∀ c, (normalize_text s).getLast? = some c → pyIsSpace c = false) := by
  refine ⟨normalize_text_no_cr s, normalize_text_no_fmt s, ?_, ?_, ?_, ?_⟩
  · show hasDoubleSpace (pyStrip _) = false
    apply pyStrip_no_double
    show hasDoubleSpace (collapseNewlinesAux 0 _) = false
    apply collapseNewlinesAux_no_double
    rw [crToLf_no_double]
    apply replaceCrlf_no_double
    exact (collapseSpacesAux_no_double _ false).1
  · show hasTripleNewline (pyStrip _) = false
    apply pyStrip_no_triple
    exact (collapseNewlinesAux_no_triple 0 _).2
  · intro c h
    exact head_pyStrip h
  · intro c h
    exact getLast_dropTrailing h

/-! ### Identity lemmas: each normalization step fixes an already-clean
string (claim C1) -/

theorem collapseSpacesAux_id : ∀ (s : List Nat) (p : Bool),
    hasDoubleSpace s = false → (p = true → headIs 32 s = false) →
    collapseSpacesAux p s = s := by
  intro s
  induction s with
  | nil => intro p _ _; rfl
  | cons d rest ih =>
    intro p hdbl hhead
    by_cases hd : d = 32
    · subst hd
      cases p with
      | true =>
        have := hhead rfl
        simp [headIs] at this
      | false =>
        rw [collapseSpacesAux_space_false,
          ih true (hasDoubleSpace_tail hdbl)
            (fun _ => headIs_of_hasDoubleSpace_space hdbl)]
    · rw [collapseSpacesAux_other hd]
      rw [ih false (hasDoubleSpace_tail hdbl) (fun hh => Bool.noConfusion hh)]

theorem replaceCrlf_id : ∀ s : List Nat, 13 ∉ s → replaceCrlf s = s := by
  intro s
  induction s using replaceCrlf.induct with
  | case1 rest ih => intro h; exact absurd (List.mem_cons_self 13 (10 :: rest)) h
  | case2 c rest hno ih =>
    intro h
    rw [replaceCrlf.eq_2 c rest hno, ih (fun hh => h (List.mem_cons_of_mem c hh))]
  | case3 => intro _; rfl

theorem crToLf_id : ∀ s : List Nat, 13 ∉ s → crToLf s = s := by
  intro s
  induction s with
  | nil => intro _; rfl
  | cons c rest ih =>
    intro h
    show (if c = 13 then 10 else c) :: crToLf rest = c :: rest
    rw [if_neg, ih (fun hh => h (List.mem_cons_of_mem c hh))]
    intro hc
    subst hc
    exact h (List.mem_cons_self _ _)

theorem leadNl_le_two_of_no_triple : ∀ {s : List Nat},
    hasTripleNewline s = false → leadNl s ≤ 2 := by
  intro s h
  match s with
  | [] => exact Nat.zero_le 2
  | [a] =>
    by_cases ha : a = 10
    · subst ha; rw [leadNl_nl]; simp [leadNl]
    · rw [leadNl_other ha]; omega
  | [a, b] =>
    by_cases ha : a = 10
    · subst ha
      rw [leadNl_nl]
      by_cases hb : b = 10
      · subst hb; rw [leadNl_nl]; simp [leadNl]
      · rw [leadNl_other hb]; omega
    · rw [leadNl_other ha]; omega
  | a :: b :: c :: t =>
    by_cases ha : a = 10
    · subst ha
      rw [leadNl_nl]
      by_cases hb : b = 10
      · subst hb
        rw [leadNl_nl]
        by_cases hc : c = 10
        · exfalso
          subst hc
          rw [hasTripleNewline_cons] at h
          simp [headIs] at h
        · rw [leadNl_other hc]
      · rw [leadNl_other hb]; omega
    · rw [leadNl_other ha]; omega

theorem collapseNewlinesAux_id : ∀ (run : Nat) (s : List Nat),
    hasTripleNewline s = false → leadNl s ≤ 2 - run →
    collapseNewlinesAux run s = s := by
  intro run s
  induction run, s using collapseNewlinesAux.induct with
  | case1 run => intro _ _; rfl
  | case2 run ds hlt ih =>
    intro h1 h2
    rw [leadNl_nl] at h2
    rw [collapseNewlinesAux_nl_lt ds hlt,
      ih (hasTripleNewline_tail h1) (by omega)]
  | case3 run ds hlt ih =>
    intro h1 h2
    rw [leadNl_nl] at h2
    omega
  | case4 run d ds hne ih =>
    intro h1 h2
    rw [collapseNewlinesAux_other ds hne,
      ih (hasTripleNewline_tail h1)
        (by have := leadNl_le_two_of_no_triple (hasTripleNewline_tail h1); omega)]

theorem dropWhile_id {p : Nat → Bool} {s : List Nat}
    (h : ∀ c, s.head? = some c → p c = false) : s.dropWhile p = s := by
  cases s with
  | nil => rfl
  | cons c rest =>
    rw [List.dropWhile_cons, if_neg]
    rw [h c rfl]
    simp

theorem dropTrailing_id : ∀ {s : List Nat},
    (∀ c, s.getLast? = some c → pyIsSpace c = false) → dropTrailing s = s := by
  intro s
  induction s with
  | nil => intro _; rfl
  | cons d ds ih =>
    intro h
    simp only [dropTrailing]
    cases ds with
    | nil =>
      have hsp : pyIsSpace d = false := h d rfl
      rw [if_neg]
      · rfl
      · intro hcon
        rw [hsp] at hcon
        exact Bool.noConfusion hcon.2
    | cons e t =>
      have hlast : ∀ c, (e :: t).getLast? = some c → pyIsSpace c = false := by
        intro c hc
        apply h c
        rw [List.getLast?_cons_cons]
        exact hc
      rw [ih hlast]
      rw [if_neg]
      intro hcon
      exact Bool.noConfusion hcon.1

theorem bomStrip_id {s : List Nat} (h : ∀ c ∈ s, isCf c = false) : bomStrip s = s := by
  apply dropWhile_id
  intro c hc
  cases s with
  | nil => cases hc
  | cons a t =>
    have ha : a = c := by cases hc; rfl
    subst ha
    have := h a (List.mem_cons_self a t)
    by_cases hfe : a = 0xFEFF
    · subst hfe
      exact absurd this (by decide)
    · simp [hfe]

theorem cfFilter_id {s : List Nat} (h : ∀ c ∈ s, isCf c = false) :
    List.filter (fun c => !isCf c) s = s := by
  apply List.filter_eq_self.mpr
  intro a ha
  rw [h a ha]
  rfl

/-- Claim C1, counterexample: the normalizer is not idempotent.  On the
byte input `61 E2 80 8D CC 81` (the letter `a`, a zero-width joiner and a
combining acute accent), the first pass removes the format-category
joiner, leaving `a` followed by the bare combining accent, which the
second pass's NFC step composes into `á`: the two outputs differ. -/
theorem normalize_not_idempotent_on_zwj :
    normalize_bytes [0x61, 0xE2, 0x80, 0x8D, 0xCC, 0x81] = [0x61, 0x301] ∧
    normalize_text (normalize_bytes [0x61, 0xE2, 0x80, 0x8D, 0xCC, 0x81]) = [0xE1] ∧
    normalize_text (normalize_bytes [0x61, 0xE2, 0x80, 0x8D, 0xCC, 0x81]) ≠
      normalize_bytes [0x61, 0xE2, 0x80, 0x8D, 0xCC, 0x81] := by
  refine ⟨by decide, by decide, by decide⟩

/-- Claim C1 (amended): the normalizer is idempotent on every byte input
whose first-pass output is NFC-invariant — re-applying the normalizer to
`normalize(x)` is the identity whenever the NFC step fixes
`normalize(x)`.  (In general a second pass can differ, because removing
format-category code points may expose a base letter followed by a
combining mark that NFC then composes; all the remaining steps are fixed
on the first pass's output unconditionally.) -/
theorem normalize_idempotent_of_nfc_fixed (b : List Nat)
    (h : nfcModel (normalize_bytes b) = normalize_bytes b) :
    normalize_text (normalize_bytes b) = normalize_bytes b := by
  obtain ⟨hcr, hfmt, hdbl, htrp, hhead, hlast⟩ :=
    normalize_text_output_invariants (utf8DecodeReplace b)
  have e : normalize_text (utf8DecodeReplace b) = normalize_bytes b := rfl
  rw [e] at hcr hfmt hdbl htrp hhead hlast
  show pyStrip (collapseNewlines (crToLf (replaceCrlf (collapseSpaces
    (List.filter (fun c => !isCf c) (bomStrip (nfcModel (normalize_bytes b)))))))) =
    normalize_bytes b
  rw [h, bomStrip_id hfmt, cfFilter_id hfmt]
  rw [show collapseSpaces (normalize_bytes b) = normalize_bytes b from
    collapseSpacesAux_id _ false hdbl (fun hh => Bool.noConfusion hh)]
  rw [replaceCrlf_id _ hcr, crToLf_id _ hcr]
  rw [show collapseNewlines (normalize_bytes b) = normalize_bytes b from
    collapseNewlinesAux_id 0 _ htrp (leadNl_le_two_of_no_triple htrp)]
  show dropTrailing ((normalize_bytes b).dropWhile pyIsSpace) = normalize_bytes b
  rw [dropWhile_id hhead, dropTrailing_id hlast]

/-- Witness for the amended C1 at a concrete input: the ASCII bytes of
`"Hi"`, whose normalized form is NFC-invariant. -/
theorem normalize_idempotent_of_nfc_fixed_witness :
    nfcModel (normalize_bytes [0x48, 0x69]) = normalize_bytes [0x48, 0x69] ∧
    normalize_text (normalize_bytes [0x48, 0x69]) = normalize_bytes [0x48, 0x69] :=
  ⟨by decide, normalize_idempotent_of_nfc_fixed [0x48, 0x69] (by decide)⟩

end CN

